import Mathlib

set_option autoImplicit false

namespace DataQuery

/-!  A shallow embedding of the multi-tenant database access broker of the
DataQuery / DataWise dashboard repository, together with proofs about its
testable properties.  Stateful services are modelled by explicit state
passing over association lists; fallible operations return `Option` or
`Except`.  -/

/-!  ## Frontend authentication state (src/unnamed/part_012)

Browser `localStorage` is modelled as an association list from keys to the
stored strings; `localStorage` holds at most one value per key and
`getItem` of a missing key yields `null`, modelled as `none`.  -/

abbrev LocalStorage := List (String × String)

def getItem (st : LocalStorage) (k : String) : Option String :=
  st.lookup k

def removeItem (st : LocalStorage) (k : String) : LocalStorage :=
  st.filter (fun p => p.1 != k)

/-- `getToken` from the auth utilities: `localStorage.getItem('auth_token')`. -/
def getToken (st : LocalStorage) : Option String :=
  getItem st "auth_token"

/-- `removeToken`: `localStorage.removeItem('auth_token')`. -/
def removeToken (st : LocalStorage) : LocalStorage :=
  removeItem st "auth_token"

/-- `removeUser`: `localStorage.removeItem('user')`. -/
def removeUser (st : LocalStorage) : LocalStorage :=
  removeItem st "user"

/-- `isAuthenticated`: `const token = getToken(); return !!token;`.
JavaScript `!!` maps `null` and the empty string to `false` and every other
string to `true`.  -/
def isAuthenticated (st : LocalStorage) : Bool :=
  match getToken st with
  | none => false
  | some t => t != ""

/-- `logout`: removes the token and the stored user (the subsequent redirect
to `/login` is a navigation side effect outside the storage state).  -/
def logout (st : LocalStorage) : LocalStorage :=
  removeUser (removeToken st)

theorem lookup_filter_ne_eq_none (st : LocalStorage) (k : String) :
    (st.filter (fun p => p.1 != k)).lookup k = none := by
  induction st with
  | nil => rfl
  | cons a t ih =>
    by_cases h : a.1 = k
    · simp only [List.filter_cons, h, bne_self_eq_false, cond_false]
      exact ih
    · have h' : (k == a.1) = false := by
        simp only [beq_eq_false_iff_ne, ne_eq]
        exact fun hh => h hh.symm
      simp only [List.filter_cons, bne_iff_ne, ne_eq, h, not_false_eq_true, cond_true,
        List.lookup, h']
      exact ih

theorem lookup_filter_eq_none_of_eq_none (st : LocalStorage) (k : String)
    (f : String × String → Bool) (h : st.lookup k = none) :
    (st.filter f).lookup k = none := by
  induction st with
  | nil => rfl
  | cons a t ih =>
    by_cases hk : k = a.1
    · exfalso
      simp [List.lookup, hk] at h
    · have hk' : (k == a.1) = false := by
        simp only [beq_eq_false_iff_ne, ne_eq]
        exact hk
      simp only [List.lookup, hk'] at h
      by_cases hf : f a
      · simp only [List.filter_cons, hf, cond_true, List.lookup, hk']
        exact ih h
      · simp only [List.filter_cons, hf, cond_false]
        exact ih h

/-!  ## Frontend API client (src/Frontend/src/lib/api.ts)

`ApiClient.request` reads an HTTP response: on a non-ok status it parses the
body (falling back to `{}` when the body is not valid JSON), and throws an
`Error` whose message is the `detail` field when that is truthy, otherwise
`HTTP error! status: <code>`; on an ok status it returns `response.json()`,
whose parse failure is rethrown.  JSON values are modelled by a small
inductive (arrays are omitted; the backend's `detail` is a scalar).  -/

inductive Json where
  | null
  | bool (b : Bool)
  | num (n : Int)
  | str (s : String)
  | obj (fields : List (String × Json))

/-- JavaScript truthiness, as used by `errorData.detail || ...`. -/
def jsTruthy : Json → Bool
  | .null => false
  | .bool b => b
  | .num n => n != 0
  | .str s => s != ""
  | .obj _ => true

/-- JavaScript string coercion, as applied by the `Error` constructor. -/
def jsString : Json → String
  | .null => "null"
  | .bool true => "true"
  | .bool false => "false"
  | .num n => toString n
  | .str s => s
  | .obj _ => "[object Object]"

/-- An HTTP response as `fetch` delivers it: `body = none` models a body that
is not valid JSON, so that `response.json()` rejects.  -/
structure HttpResponse where
  ok : Bool
  status : Nat
  body : Option Json

inductive ReqError where
  | errMsg (msg : String)
  | jsonParseError

/-- Property access `errorData.detail`: `undefined` (modelled `none`) unless
the value is an object with a `detail` field.  -/
def detailField (j : Json) : Option Json :=
  match j with
  | .obj fs => fs.lookup "detail"
  | _ => none

/-- `ApiClient.request`, as a function of the received response. -/
def request (r : HttpResponse) : Except ReqError Json :=
  if r.ok then
    match r.body with
    | some j => .ok j
    | none => .error .jsonParseError
  else
    let errorData := r.body.getD (.obj [])
    match detailField errorData with
    | some d =>
        if jsTruthy d then .error (.errMsg (jsString d))
        else .error (.errMsg ("HTTP error! status: " ++ toString r.status))
    | none => .error (.errMsg ("HTTP error! status: " ++ toString r.status))

/-- C10 (counterexample): a stored empty-string token is a non-null
`auth_token` entry, yet `isAuthenticated` returns `false` because JavaScript
`!!""` is `false`.  This refutes the claim that `isAuthenticated()` returns
true exactly when a non-null `auth_token` entry is present.  -/
theorem c10_counterexample :
    getToken [("auth_token", "")] = some "" ∧
    isAuthenticated [("auth_token", "")] = false := by
  exact ⟨rfl, rfl⟩

/-- C10 (amended): `isAuthenticated()` returns true exactly when local
storage holds a non-null, NON-EMPTY `auth_token` entry; and after
`logout()`, which removes both the stored token and the stored user,
`isAuthenticated()` returns false.  -/
theorem c10_isAuthenticated_amended (st : LocalStorage) :
    (isAuthenticated st = true ↔ ∃ t, getToken st = some t ∧ t ≠ "") ∧
    isAuthenticated (logout st) = false := by
  constructor
  · cases h : getToken st with
    | none => simp [isAuthenticated, h]
    | some t => simp [isAuthenticated, h]
  · have h1 : getToken (removeToken st) = none :=
      lookup_filter_ne_eq_none st "auth_token"
    have h2 : getToken (logout st) = none :=
      lookup_filter_eq_none_of_eq_none (removeToken st) "auth_token" _ h1
    simp [isAuthenticated, h2]

/-- C9 (counterexample): a response with `ok = true` whose body is not valid
JSON still makes `ApiClient.request` throw (the rejection of
`response.json()` propagates), refuting the claim that the call throws
exactly when the HTTP response status is not ok.  -/
theorem c9_counterexample :
    request ⟨true, 200, none⟩ = Except.error ReqError.jsonParseError ∧
    (⟨true, 200, none⟩ : HttpResponse).ok = true := by
  exact ⟨rfl, rfl⟩

/-- C9 (amended): `ApiClient.request` throws exactly when the response is
not ok or its body is not valid JSON; when ok with a valid JSON body it
returns the parsed body; for a non-ok response the thrown error message is
the string coercion of the body's `detail` field when that field is present
and truthy, and otherwise `HTTP error! status: <code>`.  -/
theorem c9_request_amended (r : HttpResponse) :
    ((∃ e, request r = Except.error e) ↔ (r.ok = false ∨ r.body = none)) ∧
    (∀ j, request r = Except.ok j ↔ (r.ok = true ∧ r.body = some j)) ∧
    (r.ok = false →
      ∀ d, detailField (r.body.getD (Json.obj [])) = some d → jsTruthy d = true →
        request r = Except.error (ReqError.errMsg (jsString d))) ∧
    (r.ok = false →
      (∀ d, detailField (r.body.getD (Json.obj [])) = some d → jsTruthy d = false) →
        request r = Except.error
          (ReqError.errMsg ("HTTP error! status: " ++ toString r.status))) := by
  obtain ⟨ok, status, body⟩ := r
  cases ok with
  | true =>
    cases body with
    | none => simp [request]
    | some j => simp [request]
  | false =>
    have hex : ∃ m, request ⟨false, status, body⟩ = Except.error (ReqError.errMsg m) := by
      cases hd : detailField (body.getD (Json.obj [])) with
      | none =>
        exact ⟨"HTTP error! status: " ++ toString status, by simp [request, hd]⟩
      | some d =>
        by_cases ht : jsTruthy d
        · exact ⟨jsString d, by simp [request, hd, ht]⟩
        · exact ⟨"HTTP error! status: " ++ toString status, by simp [request, hd, ht]⟩
    obtain ⟨m, hm⟩ := hex
    refine ⟨?_, ?_, ?_, ?_⟩
    · simp [hm]
    · intro j
      simp [hm]
    · intro _ d hd ht
      simp [request, hd, ht]
    · intro _ hall
      cases hd : detailField (body.getD (Json.obj [])) with
      | none => simp [request, hd]
      | some d => simp [request, hd, hall d hd]

/-- Witness for `c9_request_amended`: a concrete 404 with a `detail` field. -/
theorem c9_request_witness :
    request ⟨false, 404, some (Json.obj [("detail", Json.str "Not found")])⟩ =
      Except.error (ReqError.errMsg "Not found") := by
  exact (c9_request_amended
    ⟨false, 404, some (Json.obj [("detail", Json.str "Not found")])⟩).2.2.1
    rfl (Json.str "Not found") rfl rfl

/-!  ## Cache Layer (src/unnamed/part_003 `CacheStore`, src/unnamed/part_000)

Modelled from the spec: the bodies of `CacheStore.set_cache` / `get_cache` /
`cleanup_expired_cache` are not in `src/` (only their signatures and the
MongoDB collection layout are), so the TTL store is modelled from the spec:
every entry carries an explicit `expires_at`; expiration is enforced at read
time (an entry at or past its expiry is treated as absent) and
opportunistically swept; `set` overwrites any previous entry for the key.
The store is generic over the key type, so the same model serves the query
cache whose keys embed `{principal, connection, query}`.  -/

structure CacheEntry (κ : Type) (ν : Type) where
  key : κ
  value : ν
  expires_at : Nat

abbrev CacheStore (κ : Type) (ν : Type) := List (CacheEntry κ ν)

def set_cache {κ ν : Type} [DecidableEq κ] (st : CacheStore κ ν) (k : κ) (v : ν)
    (now ttl : Nat) : CacheStore κ ν :=
  ⟨k, v, now + ttl⟩ :: st.filter (fun e => decide (e.key ≠ k))

def lookupEntry {κ ν : Type} [DecidableEq κ] (st : CacheStore κ ν) (k : κ) :
    Option (CacheEntry κ ν) :=
  st.find? (fun e => decide (e.key = k))

def get_cache {κ ν : Type} [DecidableEq κ] (st : CacheStore κ ν) (k : κ)
    (now : Nat) : Option ν :=
  match lookupEntry st k with
  | some e => if now < e.expires_at then some e.value else none
  | none => none

/-- The opportunistic background sweep: physically purge entries whose
expiry is at or before the sweep time.  -/
def cleanup_expired_cache {κ ν : Type} (st : CacheStore κ ν) (now : Nat) :
    CacheStore κ ν :=
  st.filter (fun e => decide (now < e.expires_at))

theorem lookupEntry_set_cache {κ ν : Type} [DecidableEq κ]
    (st : CacheStore κ ν) (k : κ) (v : ν) (now ttl : Nat) :
    lookupEntry (set_cache st k v now ttl) k = some ⟨k, v, now + ttl⟩ := by
  simp [lookupEntry, set_cache, List.find?]

theorem lookupEntry_filter_ne {κ ν : Type} [DecidableEq κ]
    (st : CacheStore κ ν) (k : κ) (f : CacheEntry κ ν → Bool) :
    lookupEntry ((st.filter (fun e => decide (e.key ≠ k))).filter f) k = none := by
  rw [lookupEntry, List.find?_eq_none]
  intro e he
  have h1 := (List.mem_filter.mp he).1
  have h2 := (List.mem_filter.mp h1).2
  simpa using h2

/-- C4: after `set(key, v, ttl)` at time `now`, a `get` strictly before the
expiry instant `now + ttl` returns `v`, a `get` at or after that instant
returns absent, and a background sweep at any time `ts ≤ t` does not change
what `get` observes at time `t`.  -/
theorem cache_ttl_correct {κ ν : Type} [DecidableEq κ]
    (st : CacheStore κ ν) (k : κ) (v : ν) (now ttl t ts : Nat) :
    (t < now + ttl → get_cache (set_cache st k v now ttl) k t = some v) ∧
    (now + ttl ≤ t → get_cache (set_cache st k v now ttl) k t = none) ∧
    (ts ≤ t →
      get_cache (cleanup_expired_cache (set_cache st k v now ttl) ts) k t =
        get_cache (set_cache st k v now ttl) k t) := by
  refine ⟨?_, ?_, ?_⟩
  · intro ht
    simp [get_cache, lookupEntry_set_cache, ht]
  · intro ht
    simp [get_cache, lookupEntry_set_cache, Nat.not_lt.mpr ht]
  · intro hts
    by_cases hkeep : ts < now + ttl
    · have hhead : cleanup_expired_cache (set_cache st k v now ttl) ts =
          ⟨k, v, now + ttl⟩ ::
            (st.filter (fun e => decide (e.key ≠ k))).filter
              (fun e => decide (ts < e.expires_at)) := by
        simp only [cleanup_expired_cache, set_cache, List.filter_cons,
          decide_eq_true hkeep]
        simp
      rw [hhead]
      have h1 : lookupEntry (⟨k, v, now + ttl⟩ ::
          (st.filter (fun e => decide (e.key ≠ k))).filter
            (fun e => decide (ts < e.expires_at))) k =
          some (⟨k, v, now + ttl⟩ : CacheEntry κ ν) := by
        simp only [lookupEntry, List.find?]
        simp
      simp only [get_cache, h1, lookupEntry_set_cache]
    · have hexp : now + ttl ≤ ts := Nat.not_lt.mp hkeep
      have hdrop : cleanup_expired_cache (set_cache st k v now ttl) ts =
          (st.filter (fun e => decide (e.key ≠ k))).filter
            (fun e => decide (ts < e.expires_at)) := by
        simp only [cleanup_expired_cache, set_cache, List.filter_cons,
          decide_eq_false hkeep]
        simp
      rw [hdrop]
      have h1 := lookupEntry_filter_ne st k (fun e => decide (ts < e.expires_at))
      have ht : ¬t < now + ttl := Nat.not_lt.mpr (le_trans hexp hts)
      simp only [get_cache, h1, lookupEntry_set_cache, if_neg ht]

/-- Witness for `cache_ttl_correct` at a concrete store. -/
theorem cache_ttl_witness :
    get_cache (set_cache ([] : CacheStore Nat Nat) 0 7 0 5) 0 3 = some 7 ∧
    get_cache (set_cache ([] : CacheStore Nat Nat) 0 7 0 5) 0 5 = none ∧
    get_cache (cleanup_expired_cache (set_cache ([] : CacheStore Nat Nat) 0 7 0 5) 1) 0 3 =
      get_cache (set_cache ([] : CacheStore Nat Nat) 0 7 0 5) 0 3 := by
  refine ⟨?_, ?_, ?_⟩
  · exact (cache_ttl_correct [] 0 7 0 5 3 1).1 (by decide)
  · exact (cache_ttl_correct [] 0 7 0 5 5 1).2.1 (by decide)
  · exact (cache_ttl_correct [] 0 7 0 5 3 1).2.2 (by decide)

/-!  ## Connection Registry and Access Control
(src/MULTI_TENANT_ARCHITECTURE.md)

`database_connections` rows are `ConnectionRecord`s keyed by connection id
and owned by exactly one principal (`user_id`).  `AccessControlService.
user_has_access` is a pure ownership check; `DatabaseConnectionService.
get_client_connection` looks the record up, verifies access, and only then
builds the live connection.  -/

structure ConnectionRecord where
  user_id : Nat
  database_type : String
  host : String
  port : Nat
  database_name : String
  username : String
  password_encrypted : List Nat
  is_active : Bool

abbrev Registry := List (Nat × ConnectionRecord)

def get_connection_config (reg : Registry) (cid : Nat) : Option ConnectionRecord :=
  reg.lookup cid

/-- `AccessControlService.user_has_access`: `connection.user_id == user_id`;
a missing record fails closed (deny).  -/
def user_has_access (reg : Registry) (uid cid : Nat) : Bool :=
  match get_connection_config reg cid with
  | some c => c.user_id == uid
  | none => false

inductive RegError where
  | accessDenied
  | notFound
deriving DecidableEq

/-- A live, ownership-bound runtime handle, keyed by the record id. -/
structure LiveConnectionHandle where
  connection_id : Nat
  config : ConnectionRecord

/-- `DatabaseConnectionService.get_client_connection`: fetch the
configuration, raise `AccessDeniedError` unless the user owns it, then
create the dynamic connection.  -/
def get_client_connection (reg : Registry) (uid cid : Nat) :
    Except RegError LiveConnectionHandle :=
  match get_connection_config reg cid with
  | none => Except.error RegError.notFound
  | some c =>
      if user_has_access reg uid cid then Except.ok ⟨cid, c⟩
      else Except.error RegError.accessDenied

/-- A query-cache key embeds the requesting principal, the connection and
the query text (the stored key is a hash of this triple; the hash is
modelled as the triple itself).  -/
structure QueryKey where
  user_id : Nat
  connection_id : Nat
  query : String
deriving DecidableEq

/-- `cache_service.get_cached_query_result(user_id, connection_id, query)`:
a read through the Cache Layer under the caller's own key.  -/
def get_cached_query_result {ν : Type} (st : CacheStore QueryKey ν)
    (uid cid : Nat) (q : String) (now : Nat) : Option ν :=
  get_cache st ⟨uid, cid, q⟩ now

theorem get_cache_mem {κ ν : Type} [DecidableEq κ]
    (st : CacheStore κ ν) (k : κ) (now : Nat) (v : ν)
    (h : get_cache st k now = some v) :
    ∃ e, e ∈ st ∧ e.key = k ∧ e.value = v := by
  unfold get_cache at h
  cases hl : lookupEntry st k with
  | none => rw [hl] at h; exact absurd h (by simp)
  | some e =>
    rw [hl] at h
    dsimp only at h
    have hmem : e ∈ st := List.mem_of_find?_eq_some hl
    have hkey : e.key = k := by
      have := List.find?_some hl
      simpa using this
    by_cases hexp : now < e.expires_at
    · rw [if_pos hexp] at h
      exact ⟨e, hmem, hkey, Option.some_injective _ h⟩
    · rw [if_neg hexp] at h
      exact absurd h (by simp)

/-- `cache_service.cache_query_result(user_id, connection_id, query,
result)`: a write through the Cache Layer under the caller's own key.  -/
def cache_query_result {ν : Type} (st : CacheStore QueryKey ν)
    (uid cid : Nat) (q : String) (v : ν) (now ttl : Nat) : CacheStore QueryKey ν :=
  set_cache st ⟨uid, cid, q⟩ v now ttl

/-- The Query Execution Flow (src/unnamed/part_003, lines 230-246, and
`MultiTenantQueryService.execute_query`): check the cache; on a miss,
resolve the connection with the ownership check (`get_client_connection`),
execute the query on the client database (the engine's answer is the
`result` parameter), cache it under the caller's key and return it.  A
failed ownership check propagates and writes nothing.  This flow is the
only writer of the query cache.  -/
def execute_query {ν : Type} (reg : Registry) (st : CacheStore QueryKey ν)
    (uid cid : Nat) (q : String) (result : ν) (now ttl : Nat) :
    Except RegError (ν × CacheStore QueryKey ν) :=
  match get_cached_query_result st uid cid q now with
  | some v => Except.ok (v, st)
  | none =>
      match get_client_connection reg uid cid with
      | Except.error e => Except.error e
      | Except.ok _ => Except.ok (result, cache_query_result st uid cid q result now ttl)

/-- The cache-ownership invariant: every entry's key names a connection
owned by the key's principal.  It holds of the empty cache and is preserved
by the execution flow, so it holds of every reachable cache state.  -/
def cacheOwned {ν : Type} (reg : Registry) (st : CacheStore QueryKey ν) : Prop :=
  ∀ e ∈ st, ∃ r, get_connection_config reg e.key.connection_id = some r ∧
    r.user_id = e.key.user_id

theorem get_client_connection_ok_owner (reg : Registry) (uid cid : Nat)
    (hdl : LiveConnectionHandle)
    (h : get_client_connection reg uid cid = Except.ok hdl) :
    ∃ r, get_connection_config reg cid = some r ∧ r.user_id = uid := by
  unfold get_client_connection at h
  cases hl : get_connection_config reg cid with
  | none => rw [hl] at h; exact absurd h (by simp)
  | some c =>
    rw [hl] at h
    dsimp only at h
    by_cases hacc : user_has_access reg uid cid = true
    · have huid : c.user_id = uid := by
        simp only [user_has_access, hl, beq_iff_eq] at hacc
        exact hacc
      exact ⟨c, rfl, huid⟩
    · rw [if_neg hacc] at h
      exact absurd h (by simp)

/-- C1: tenant isolation.  For distinct principals `P1 ≠ P2` and a
connection record owned by `P2`: an `authorize` (`user_has_access`) or an
`acquire` (`get_client_connection`) issued by `P1` against that record is
denied; the cache-ownership invariant holds of the empty cache and is
preserved by the only cache writer, the ownership-checked `execute_query`
flow, so it holds of every reachable cache state; and under that invariant
every cache value returned to `P1` comes from an entry whose key embeds
`P1` as principal and a connection `P1` owns — hence never `P2`'s principal
identifier and never `P2`'s connection identifier `cid`.  -/
theorem tenant_isolation {ν : Type} (reg : Registry) (P1 P2 cid : Nat)
    (r : ConnectionRecord) (hne : P1 ≠ P2)
    (hrec : get_connection_config reg cid = some r) (hown : r.user_id = P2) :
    user_has_access reg P1 cid = false ∧
    get_client_connection reg P1 cid = Except.error RegError.accessDenied ∧
    cacheOwned reg ([] : CacheStore QueryKey ν) ∧
    (∀ (st : CacheStore QueryKey ν) (uid c : Nat) (q : String) (result : ν)
        (now ttl : Nat) (vout : ν) (stout : CacheStore QueryKey ν),
      cacheOwned reg st →
      execute_query reg st uid c q result now ttl = Except.ok (vout, stout) →
      cacheOwned reg stout) ∧
    (∀ (st : CacheStore QueryKey ν), cacheOwned reg st →
      ∀ (c : Nat) (q : String) (now : Nat) (v : ν),
        get_cached_query_result st P1 c q now = some v →
        ∃ e, e ∈ st ∧ e.key = ⟨P1, c, q⟩ ∧ e.key.user_id ≠ P2 ∧
          e.key.connection_id ≠ cid) := by
  have hacc : user_has_access reg P1 cid = false := by
    have hne' : r.user_id ≠ P1 := by
      rw [hown]
      exact fun hh => hne hh.symm
    simp [user_has_access, hrec, hne']
  refine ⟨hacc, ?_, ?_, ?_, ?_⟩
  · unfold get_client_connection
    rw [hrec, hacc]
    simp
  · intro e he
    exact absurd he (by simp)
  · intro st uid c q result now ttl vout stout hst hex
    unfold execute_query at hex
    cases hc : get_cached_query_result st uid c q now with
    | some v =>
      rw [hc] at hex
      dsimp only at hex
      have hs : stout = st := by
        have := (Except.ok.injEq _ _).mp hex
        exact (congrArg Prod.snd this).symm
      rw [hs]
      exact hst
    | none =>
      rw [hc] at hex
      dsimp only at hex
      cases hcc : get_client_connection reg uid c with
      | error e =>
        rw [hcc] at hex
        exact absurd hex (by simp)
      | ok hdl =>
        rw [hcc] at hex
        have hs : stout = cache_query_result st uid c q result now ttl := by
          have := (Except.ok.injEq _ _).mp hex
          exact (congrArg Prod.snd this).symm
        obtain ⟨rr, hrr, hruid⟩ := get_client_connection_ok_owner reg uid c hdl hcc
        rw [hs]
        intro e he
        unfold cache_query_result set_cache at he
        rcases List.mem_cons.mp he with hh | hh
        · rw [hh]
          exact ⟨rr, hrr, hruid⟩
        · exact hst e (List.mem_of_mem_filter hh)
  · intro st hst c q now v h
    obtain ⟨e, hmem, hkey, _⟩ := get_cache_mem st ⟨P1, c, q⟩ now v h
    obtain ⟨rr, hrr, hruid⟩ := hst e hmem
    have hconn : e.key.connection_id = c := by rw [hkey]
    have huserP1 : e.key.user_id = P1 := by rw [hkey]
    rw [hconn] at hrr
    rw [huserP1] at hruid
    refine ⟨e, hmem, hkey, ?_, ?_⟩
    · rw [huserP1]
      exact hne
    · rw [hconn]
      intro hcc
      rw [hcc, hrec] at hrr
      have hrreq : r = rr := Option.some_injective _ hrr
      exact hne (hruid.symm.trans (by rw [← hrreq, hown]))

/-- Witness for `tenant_isolation`: principal 1 against record 5 owned by
principal 2, with a cache (satisfying the ownership invariant) holding a
value for principal 1's own connection 6.  -/
theorem tenant_isolation_witness :
    user_has_access [(5, ⟨2, "postgresql", "h", 5432, "d", "u", [], true⟩),
      (6, ⟨1, "postgresql", "h2", 5432, "d2", "u2", [], true⟩)] 1 5 = false ∧
    get_client_connection [(5, ⟨2, "postgresql", "h", 5432, "d", "u", [], true⟩),
      (6, ⟨1, "postgresql", "h2", 5432, "d2", "u2", [], true⟩)] 1 5 =
      Except.error RegError.accessDenied ∧
    ∃ e, e ∈ ([⟨⟨1, 6, "q"⟩, 42, 10⟩] : CacheStore QueryKey Nat) ∧
      e.key = ⟨1, 6, "q"⟩ ∧ e.key.user_id ≠ 2 ∧ e.key.connection_id ≠ 5 := by
  have howned : cacheOwned [(5, ⟨2, "postgresql", "h", 5432, "d", "u", [], true⟩),
      (6, ⟨1, "postgresql", "h2", 5432, "d2", "u2", [], true⟩)]
      ([⟨⟨1, 6, "q"⟩, 42, 10⟩] : CacheStore QueryKey Nat) := by
    intro e he
    have heq : e = ⟨⟨1, 6, "q"⟩, 42, 10⟩ := by simpa using he
    rw [heq]
    exact ⟨⟨1, "postgresql", "h2", 5432, "d2", "u2", [], true⟩, rfl, rfl⟩
  have h := tenant_isolation (ν := Nat)
    [(5, ⟨2, "postgresql", "h", 5432, "d", "u", [], true⟩),
     (6, ⟨1, "postgresql", "h2", 5432, "d2", "u2", [], true⟩)] 1 2 5
    ⟨2, "postgresql", "h", 5432, "d", "u", [], true⟩ (by decide) rfl rfl
  exact ⟨h.1, h.2.1, h.2.2.2.2 [⟨⟨1, 6, "q"⟩, 42, 10⟩] howned 6 "q" 3 42 rfl⟩

/-- C6: `get` for a non-owner of an existing record fails with
`AccessDenied` and never with `NotFound`: the lookup succeeds first and the
ownership check then raises `AccessDeniedError`.  -/
theorem get_nonowner_access_denied (reg : Registry) (uid cid : Nat)
    (r : ConnectionRecord) (hrec : get_connection_config reg cid = some r)
    (hne : r.user_id ≠ uid) :
    get_client_connection reg uid cid = Except.error RegError.accessDenied ∧
    get_client_connection reg uid cid ≠ Except.error RegError.notFound := by
  have hacc : user_has_access reg uid cid = false := by
    simp [user_has_access, hrec, hne]
  have h : get_client_connection reg uid cid = Except.error RegError.accessDenied := by
    unfold get_client_connection
    rw [hrec, hacc]
    simp
  exact ⟨h, by rw [h]; simp⟩

/-- Witness for `get_nonowner_access_denied`. -/
theorem get_nonowner_witness :
    get_client_connection [(9, ⟨7, "mysql", "h", 3306, "d", "u", [], true⟩)] 3 9 =
      Except.error RegError.accessDenied ∧
    get_client_connection [(9, ⟨7, "mysql", "h", 3306, "d", "u", [], true⟩)] 3 9 ≠
      Except.error RegError.notFound := by
  exact get_nonowner_access_denied [(9, ⟨7, "mysql", "h", 3306, "d", "u", [], true⟩)]
    3 9 ⟨7, "mysql", "h", 3306, "d", "u", [], true⟩ rfl (by decide)

/-!  ## Session Ledger (src/unnamed/part_003 `SessionStore`, src/unnamed/part_000)

Modelled from the spec: the body of `SessionStore.validate_session` is not
in `src/` (only its signature, the `sessions` collection layout with its
`expires_at` TTL index and unique `session_id` index are).  A session is
keyed by its one-way-hashed identifier; `validate` returns the principal
only for a stored, unexpired session and `invalid` (`none`) otherwise; the
`expires_at` TTL index (`expireAfterSeconds: 0`) removes a document once
`expires_at ≤ now`, so a session at or past its expiry is invalid.  -/

structure SessionRecord where
  user_id : Nat
  expires_at : Nat
  last_activity : Nat

abbrev SessionLedger := List (String × SessionRecord)

def validate_session (st : SessionLedger) (sid : String) (now : Nat) : Option Nat :=
  match st.lookup sid with
  | none => none
  | some r => if r.expires_at ≤ now then none else some r.user_id

/-- C8: `validate` on an unknown id or on a session whose expiry has passed
returns invalid, and a principal is returned only for a stored, unexpired
session.  -/
theorem session_validate_correct (st : SessionLedger) (sid : String) (now : Nat) :
    (st.lookup sid = none → validate_session st sid now = none) ∧
    (∀ r, st.lookup sid = some r → r.expires_at ≤ now →
      validate_session st sid now = none) ∧
    (∀ u, validate_session st sid now = some u →
      ∃ r, st.lookup sid = some r ∧ r.user_id = u ∧ now < r.expires_at) := by
  refine ⟨?_, ?_, ?_⟩
  · intro h
    simp [validate_session, h]
  · intro r hr hexp
    simp [validate_session, hr, hexp]
  · intro u h
    unfold validate_session at h
    cases hl : st.lookup sid with
    | none => rw [hl] at h; exact absurd h (by simp)
    | some r =>
      rw [hl] at h
      dsimp only at h
      by_cases hexp : r.expires_at ≤ now
      · rw [if_pos hexp] at h
        exact absurd h (by simp)
      · rw [if_neg hexp] at h
        exact ⟨r, rfl, Option.some_injective _ h, Nat.lt_of_not_le hexp⟩

/-- Witness for `session_validate_correct` on a concrete ledger. -/
theorem session_validate_witness :
    validate_session [("sid1", ⟨4, 100, 50⟩)] "missing" 10 = none ∧
    validate_session [("sid1", ⟨4, 100, 50⟩)] "sid1" 100 = none ∧
    (∃ r, ([("sid1", (⟨4, 100, 50⟩ : SessionRecord))] : SessionLedger).lookup "sid1" =
      some r ∧ r.user_id = 4 ∧ (10 : Nat) < r.expires_at) := by
  refine ⟨?_, ?_, ?_⟩
  · exact (session_validate_correct [("sid1", ⟨4, 100, 50⟩)] "missing" 10).1 rfl
  · exact (session_validate_correct [("sid1", ⟨4, 100, 50⟩)] "sid1" 100).2.1
      ⟨4, 100, 50⟩ rfl (by decide)
  · exact (session_validate_correct [("sid1", ⟨4, 100, 50⟩)] "sid1" 10).2.2 4 rfl

/-!  ## Schema Cataloger (src/MULTI_TENANT_ARCHITECTURE.md
`SchemaDetectionService.detect_client_schema`)

Modelled from the spec: the markdown shows only the happy path (introspect,
cache, return); the failure fallback — return the last known-good persisted
snapshot if present, else fail with `SchemaUnavailable` — is not in `src/`
and is modelled from the spec.  `discover` takes the outcome of engine
introspection (`none` models an introspection failure) and the snapshot
persisted on the `ConnectionRecord`.  -/

structure SchemaSnapshot where
  tables : List (String × List (String × String))

inductive SchemaError where
  | schemaUnavailable
deriving DecidableEq

def discover (introspected : Option SchemaSnapshot)
    (persisted : Option SchemaSnapshot) : Except SchemaError SchemaSnapshot :=
  match introspected with
  | some s => Except.ok s
  | none =>
      match persisted with
      | some prior => Except.ok prior
      | none => Except.error SchemaError.schemaUnavailable

/-- C7: when introspection fails, `discover` returns the previously
persisted known-good snapshot when one exists and fails with
`SchemaUnavailable` otherwise; successful introspection is returned as is.  -/
theorem schema_fallback_correct (persisted : Option SchemaSnapshot) :
    (∀ p, persisted = some p → discover none persisted = Except.ok p) ∧
    (persisted = none → discover none persisted = Except.error SchemaError.schemaUnavailable) ∧
    (∀ s, discover (some s) persisted = Except.ok s) := by
  refine ⟨?_, ?_, ?_⟩
  · intro p hp
    rw [hp]
    rfl
  · intro hp
    rw [hp]
    rfl
  · intro s
    rfl

/-- Witness for `schema_fallback_correct` on a concrete snapshot. -/
theorem schema_fallback_witness :
    discover none (some ⟨[("sales_data", [("id", "int")])]⟩) =
      Except.ok ⟨[("sales_data", [("id", "int")])]⟩ ∧
    discover none (none : Option SchemaSnapshot) =
      Except.error SchemaError.schemaUnavailable := by
  exact ⟨(schema_fallback_correct (some ⟨[("sales_data", [("id", "int")])]⟩)).1
      ⟨[("sales_data", [("id", "int")])]⟩ rfl,
    (schema_fallback_correct none).2.1 rfl⟩

/-!  ## Rate Limiter (src/unnamed/part_003 `RateLimitStore` and the
Rate Limiting Flow)

`rate_limits` documents hold a per-user counter keyed by the window start.
The store is an association list from `(user, window)` to the count; a new
window key implicitly resets the counter.  The Rate Limiting Flow of
`part_003` (lines 249-264) is: 1. `check_rate_limit(user_id)`; if not
allowed, return 429 — without incrementing; 2. otherwise
`increment_request_count(user_id)`; 3. process the request.  The body of
`check_rate_limit` is not in `src/` and is modelled from the spec's
fixed-window comparison against the configured limit, with
`window = now / windowSize`.  -/

abbrev RateLimitStore := List ((Nat × Nat) × Nat)

def get_request_count (st : RateLimitStore) (u w : Nat) : Nat :=
  (st.lookup (u, w)).getD 0

def increment_request_count (st : RateLimitStore) (u w : Nat) : RateLimitStore :=
  ((u, w), get_request_count st u w + 1) :: st

def check_rate_limit (limit windowSize : Nat) (st : RateLimitStore)
    (u now : Nat) : Bool :=
  get_request_count st u (now / windowSize) < limit

/-- One pass through the Rate Limiting Flow: deny (429) without touching the
counter, or increment the counter for the current window and proceed.  -/
def admission (limit windowSize : Nat) (st : RateLimitStore) (u now : Nat) :
    Bool × RateLimitStore :=
  if check_rate_limit limit windowSize st u now then
    (true, increment_request_count st u (now / windowSize))
  else
    (false, st)

/-- The store after `k` consecutive requests by `u` at time `now`. -/
def admissionN (limit windowSize u now : Nat) : Nat → RateLimitStore → RateLimitStore
  | 0, st => st
  | k + 1, st => admissionN limit windowSize u now k (admission limit windowSize st u now).2

theorem get_request_count_increment_self (st : RateLimitStore) (u w : Nat) :
    get_request_count (increment_request_count st u w) u w =
      get_request_count st u w + 1 := by
  simp [get_request_count, increment_request_count, List.lookup]

theorem get_request_count_increment_ne (st : RateLimitStore) (u w u' w' : Nat)
    (h : ¬(u' = u ∧ w' = w)) :
    get_request_count (increment_request_count st u w) u' w' =
      get_request_count st u' w' := by
  have hb : ((u', w') == (u, w)) = false := by
    have hne : (u', w') ≠ (u, w) := by
      intro hh
      exact h ⟨congrArg Prod.fst hh, congrArg Prod.snd hh⟩
    simpa using hne
  simp [get_request_count, increment_request_count, List.lookup, hb]

theorem get_request_count_admission_ne (limit windowSize : Nat)
    (st : RateLimitStore) (u now u' w' : Nat)
    (h : ¬(u' = u ∧ w' = now / windowSize)) :
    get_request_count (admission limit windowSize st u now).2 u' w' =
      get_request_count st u' w' := by
  unfold admission
  by_cases hc : check_rate_limit limit windowSize st u now
  · rw [if_pos hc]
    exact get_request_count_increment_ne st u (now / windowSize) u' w' h
  · rw [if_neg hc]

theorem get_request_count_admissionN_ne (limit windowSize u now u' w' : Nat)
    (h : ¬(u' = u ∧ w' = now / windowSize)) :
    ∀ (k : Nat) (st : RateLimitStore),
      get_request_count (admissionN limit windowSize u now k st) u' w' =
        get_request_count st u' w' := by
  intro k
  induction k with
  | zero => intro st; rfl
  | succ k ih =>
    intro st
    rw [admissionN, ih, get_request_count_admission_ne limit windowSize st u now u' w' h]

theorem get_request_count_admissionN (limit windowSize u now : Nat) :
    ∀ (k : Nat) (st : RateLimitStore) (c : Nat),
      get_request_count st u (now / windowSize) = c → c ≤ limit →
      get_request_count (admissionN limit windowSize u now k st) u (now / windowSize) =
        min (c + k) limit := by
  intro k
  induction k with
  | zero =>
    intro st c h hc
    simpa [admissionN, h] using (Nat.min_eq_left hc).symm
  | succ k ih =>
    intro st c h hc
    rw [admissionN]
    by_cases hlt : c < limit
    · have hcheck : check_rate_limit limit windowSize st u now = true := by
        simp [check_rate_limit, h, hlt]
      have hst : (admission limit windowSize st u now).2 =
          increment_request_count st u (now / windowSize) := by
        simp [admission, hcheck]
      have hc1 : get_request_count
          (increment_request_count st u (now / windowSize)) u (now / windowSize) = c + 1 := by
        rw [get_request_count_increment_self, h]
      have hrec := ih (increment_request_count st u (now / windowSize)) (c + 1) hc1
        (Nat.succ_le_of_lt hlt)
      rw [hst, hrec]
      have harr : c + 1 + k = c + (k + 1) := by omega
      rw [harr]
    · have hc' : c = limit := Nat.le_antisymm hc (Nat.not_lt.mp hlt)
      have hcheck : check_rate_limit limit windowSize st u now = false := by
        simp [check_rate_limit, h, hlt]
      have hst : (admission limit windowSize st u now).2 = st := by
        simp [admission, hcheck]
      have hrec := ih st c h hc
      rw [hst, hrec, hc']
      have h1 : min (limit + k) limit = limit := Nat.min_eq_right (Nat.le_add_right _ _)
      have h2 : min (limit + (k + 1)) limit = limit := Nat.min_eq_right (Nat.le_add_right _ _)
      rw [h1, h2]

/-- C3 (counterexample): with limit 2 and window size 10, starting from an
empty store, the third request by user 0 at time 0 is denied and the stored
counter remains 2 — the denied call does NOT increment the counter to 3, so
a denied request does not consume a slot.  -/
theorem rate_limit_counterexample :
    (admission 2 10 (admissionN 2 10 0 0 2 []) 0 0).1 = false ∧
    get_request_count (admission 2 10 (admissionN 2 10 0 0 2 []) 0 0).2 0 0 = 2 ∧
    (2 : Nat) ≠ 3 := by
  decide

/-- C3 (amended): for a principal with a fresh window and limit `N`, the
first `N` requests in the window are allowed, the `(N+1)`-th is denied with
the counter left at `N` (the flow checks before incrementing, so a denied
request consumes no slot), and the first request in the next window is
allowed.  -/
theorem rate_limit_fixed_window_amended (limit windowSize u now now2 : Nat)
    (st : RateLimitStore) (hlim : 0 < limit)
    (h0 : get_request_count st u (now / windowSize) = 0)
    (hnext : now2 / windowSize = now / windowSize + 1)
    (h02 : get_request_count st u (now2 / windowSize) = 0) :
    (∀ k, k < limit →
      (admission limit windowSize (admissionN limit windowSize u now k st) u now).1 = true) ∧
    (admission limit windowSize (admissionN limit windowSize u now limit st) u now).1 = false ∧
    get_request_count
      (admission limit windowSize (admissionN limit windowSize u now limit st) u now).2
      u (now / windowSize) = limit ∧
    (admission limit windowSize (admissionN limit windowSize u now limit st) u now2).1 = true := by
  have hcount : ∀ k, k ≤ limit →
      get_request_count (admissionN limit windowSize u now k st) u (now / windowSize) = k := by
    intro k hk
    have := get_request_count_admissionN limit windowSize u now k st 0 h0 (Nat.zero_le _)
    rw [this, Nat.zero_add, Nat.min_eq_left hk]
  refine ⟨?_, ?_, ?_, ?_⟩
  · intro k hk
    have hc := hcount k (Nat.le_of_lt hk)
    simp [admission, check_rate_limit, hc, hk]
  · have hc := hcount limit (Nat.le_refl _)
    simp [admission, check_rate_limit, hc]
  · have hc := hcount limit (Nat.le_refl _)
    have hcheck : check_rate_limit limit windowSize
        (admissionN limit windowSize u now limit st) u now = false := by
      simp [check_rate_limit, hc]
    simp [admission, hcheck, hc]
  · have hother : get_request_count (admissionN limit windowSize u now limit st)
        u (now2 / windowSize) = 0 := by
      have hne : ¬(u = u ∧ now2 / windowSize = now / windowSize) := by
        intro hh
        omega
      rw [get_request_count_admissionN_ne limit windowSize u now u (now2 / windowSize) hne
        limit st, h02]
    simp [admission, check_rate_limit, hother, hlim]

/-- Witness for `rate_limit_fixed_window_amended` at limit 2, window size
10, times 0 and 10.  -/
theorem rate_limit_amended_witness :
    (admission 2 10 (admissionN 2 10 0 0 1 []) 0 0).1 = true ∧
    (admission 2 10 (admissionN 2 10 0 0 2 []) 0 0).1 = false ∧
    get_request_count (admission 2 10 (admissionN 2 10 0 0 2 []) 0 0).2 0 0 = 2 ∧
    (admission 2 10 (admissionN 2 10 0 0 2 []) 0 10).1 = true := by
  have h := rate_limit_fixed_window_amended 2 10 0 0 10 [] (by decide) rfl (by decide) rfl
  exact ⟨h.1 1 (by decide), h.2.1, h.2.2.1, h.2.2.2⟩

/-!  ## Secret Vault (src/MULTI_TENANT_ARCHITECTURE.md `EncryptionService`)

`encrypt_database_password` encrypts with AES-GCM under the process-wide
key, using a fresh nonce per call, and stores
`base64(nonce ++ tag ++ ciphertext)`; `decrypt_database_password` splits the
blob at offsets 12 and 28 (`nonce = data[:12]`, `tag = data[12:28]`,
`ct = data[28:]`) and calls `decrypt_and_verify`, which fails when the tag
does not verify.  Byte strings are lists of naturals < 256; the blob is
modelled at byte level (base64 is an injective transport encoding).  The
AES-GCM primitive itself is library code, not repository code; it is
modelled from the spec as an ideal authenticated cipher of the same shape:
a keystream cipher for confidentiality and a GHASH-style polynomial MAC
over the prime field `ZMod 257` for integrity, with the tag binding both
the nonce and the ciphertext, encoded into the 16 tag bytes.  -/

def toNumAux (a : Nat) (l : List Nat) : Nat :=
  l.foldl (fun x b => x * 256 + b) a

/-- Big-endian byte-string-to-number decoding. -/
def toNum (l : List Nat) : Nat :=
  toNumAux 0 l

/-- Big-endian encoding of `v` into exactly `w` bytes. -/
def toBytes : Nat → Nat → List Nat
  | 0, _ => []
  | w + 1, v => toBytes w (v / 256) ++ [v % 256]

theorem toNumAux_eq (l : List Nat) : ∀ a : Nat,
    toNumAux a l = a * 256 ^ l.length + toNum l := by
  induction l with
  | nil => intro a; simp [toNumAux, toNum]
  | cons b t ih =>
    intro a
    have h1 : toNumAux a (b :: t) = toNumAux (a * 256 + b) t := rfl
    have h2 : toNum (b :: t) = toNumAux b t := by
      simp [toNum, toNumAux]
    rw [h1, ih (a * 256 + b), h2, ih b]
    simp [List.length_cons]
    ring

theorem toNum_cons (b : Nat) (t : List Nat) :
    toNum (b :: t) = b * 256 ^ t.length + toNum t := by
  have h2 : toNum (b :: t) = toNumAux b t := by
    simp [toNum, toNumAux]
  rw [h2, toNumAux_eq]

theorem toNum_append (l m : List Nat) :
    toNum (l ++ m) = toNum l * 256 ^ m.length + toNum m := by
  have h : toNum (l ++ m) = toNumAux (toNum l) m := by
    simp [toNum, toNumAux, List.foldl_append]
  rw [h, toNumAux_eq]

theorem toNum_lt (l : List Nat) (h : ∀ b ∈ l, b < 256) :
    toNum l < 256 ^ l.length := by
  induction l with
  | nil => simp [toNum, toNumAux]
  | cons b t ih =>
    have hb : b < 256 := h b (List.mem_cons_self b t)
    have ht : toNum t < 256 ^ t.length := ih (fun x hx => h x (List.mem_cons_of_mem b hx))
    rw [toNum_cons, List.length_cons]
    calc b * 256 ^ t.length + toNum t
        < b * 256 ^ t.length + 256 ^ t.length := by omega
      _ = (b + 1) * 256 ^ t.length := by ring
      _ ≤ 256 * 256 ^ t.length := Nat.mul_le_mul_right _ (by omega)
      _ = 256 ^ (t.length + 1) := by ring

theorem toNum_inj : ∀ (l1 l2 : List Nat), l1.length = l2.length →
    (∀ b ∈ l1, b < 256) → (∀ b ∈ l2, b < 256) → toNum l1 = toNum l2 → l1 = l2 := by
  intro l1
  induction l1 with
  | nil =>
    intro l2 hlen _ _ _
    exact (List.eq_nil_of_length_eq_zero hlen.symm).symm
  | cons a t1 ih =>
    intro l2 hlen h1 h2 heq
    cases l2 with
    | nil => exact absurd hlen (by simp)
    | cons b t2 =>
      have hlen' : t1.length = t2.length := by
        simpa using hlen
      rw [toNum_cons, toNum_cons, hlen'] at heq
      have ht1 : toNum t1 < 256 ^ t2.length := by
        rw [← hlen']
        exact toNum_lt t1 (fun x hx => h1 x (List.mem_cons_of_mem a hx))
      have ht2 : toNum t2 < 256 ^ t2.length := toNum_lt t2
        (fun x hx => h2 x (List.mem_cons_of_mem b hx))
      have hab : a = b := by
        by_contra hne
        rcases Nat.lt_or_ge a b with hlt | hge
        · have : a * 256 ^ t2.length + toNum t1 < b * 256 ^ t2.length + toNum t2 := by
            have hstep : (a + 1) * 256 ^ t2.length ≤ b * 256 ^ t2.length :=
              Nat.mul_le_mul_right _ hlt
            calc a * 256 ^ t2.length + toNum t1
                < a * 256 ^ t2.length + 256 ^ t2.length := by omega
              _ = (a + 1) * 256 ^ t2.length := by ring
              _ ≤ b * 256 ^ t2.length := hstep
              _ ≤ b * 256 ^ t2.length + toNum t2 := Nat.le_add_right _ _
          omega
        · have hlt : b < a := Nat.lt_of_le_of_ne hge (fun hh => hne hh.symm)
          have : b * 256 ^ t2.length + toNum t2 < a * 256 ^ t2.length + toNum t1 := by
            have hstep : (b + 1) * 256 ^ t2.length ≤ a * 256 ^ t2.length :=
              Nat.mul_le_mul_right _ hlt
            calc b * 256 ^ t2.length + toNum t2
                < b * 256 ^ t2.length + 256 ^ t2.length := by omega
              _ = (b + 1) * 256 ^ t2.length := by ring
              _ ≤ a * 256 ^ t2.length := hstep
              _ ≤ a * 256 ^ t2.length + toNum t1 := Nat.le_add_right _ _
          omega
      subst hab
      have hteq : toNum t1 = toNum t2 := by omega
      rw [ih t2 hlen' (fun x hx => h1 x (List.mem_cons_of_mem a hx))
        (fun x hx => h2 x (List.mem_cons_of_mem a hx)) hteq]

theorem toBytes_length : ∀ (w v : Nat), (toBytes w v).length = w := by
  intro w
  induction w with
  | zero => intro v; rfl
  | succ w ih =>
    intro v
    simp [toBytes, ih]

theorem toBytes_lt : ∀ (w v : Nat), ∀ b ∈ toBytes w v, b < 256 := by
  intro w
  induction w with
  | zero => intro v b hb; exact absurd hb (by simp [toBytes])
  | succ w ih =>
    intro v b hb
    rw [toBytes] at hb
    rcases List.mem_append.mp hb with h | h
    · exact ih (v / 256) b h
    · have : b = v % 256 := List.mem_singleton.mp h
      omega

theorem toNum_toBytes : ∀ (w v : Nat), v < 256 ^ w → toNum (toBytes w v) = v := by
  intro w
  induction w with
  | zero =>
    intro v hv
    have : v = 0 := by simpa using hv
    simp [toBytes, toNum, toNumAux, this]
  | succ w ih =>
    intro v hv
    have hdiv : v / 256 < 256 ^ w := by
      rw [Nat.div_lt_iff_lt_mul (by omega)]
      calc v < 256 ^ (w + 1) := hv
        _ = 256 ^ w * 256 := by ring
    rw [toBytes, toNum_append, ih (v / 256) hdiv]
    have h1 : toNum [v % 256] = v % 256 := by
      simp [toNum, toNumAux]
    rw [h1]
    simp
    omega

instance : Fact (Nat.Prime 257) := ⟨by norm_num⟩

/-- The MAC field of the modelled authenticated cipher. -/
abbrev F257 := ZMod 257

def gstep (H : F257) (acc : F257) (b : Nat) : F257 :=
  acc * H + (b : F257)

def gfold (H : F257) (a : F257) (l : List Nat) : F257 :=
  l.foldl (gstep H) a

/-- GHASH-style polynomial hash of a byte string at the point `H`. -/
def ghash (H : F257) (l : List Nat) : F257 :=
  gfold H 0 l

theorem gfold_eq (H : F257) (l : List Nat) : ∀ a : F257,
    gfold H a l = a * H ^ l.length + ghash H l := by
  induction l with
  | nil => intro a; simp [gfold, ghash]
  | cons b t ih =>
    intro a
    have h1 : gfold H a (b :: t) = gfold H (a * H + (b : F257)) t := rfl
    have h2 : ghash H (b :: t) = gfold H ((b : F257)) t := by
      simp [ghash, gfold, gstep]
    rw [h1, ih (a * H + (b : F257)), h2, ih ((b : F257))]
    simp [List.length_cons]
    ring

theorem ghash_cons (H : F257) (b : Nat) (t : List Nat) :
    ghash H (b :: t) = (b : F257) * H ^ t.length + ghash H t := by
  have h2 : ghash H (b :: t) = gfold H ((b : F257)) t := by
    simp [ghash, gfold, gstep]
  rw [h2, gfold_eq]

theorem ghash_append (H : F257) (l m : List Nat) :
    ghash H (l ++ m) = ghash H l * H ^ m.length + ghash H m := by
  have h : ghash H (l ++ m) = gfold H (ghash H l) m := by
    simp [ghash, gfold, List.foldl_append]
  rw [h, gfold_eq]

theorem natCast_F257_inj (a b : Nat) (ha : a < 257) (hb : b < 257)
    (h : (a : F257) = (b : F257)) : a = b := by
  have := (ZMod.natCast_eq_natCast_iff' a b 257).mp h
  rwa [Nat.mod_eq_of_lt ha, Nat.mod_eq_of_lt hb] at this

theorem ghash_set_ne (H : F257) (hH : H ≠ 0) (l : List Nat) (i : Nat)
    (hi : i < l.length) (v : Nat) (hv : v < 256) (hb : ∀ b ∈ l, b < 256)
    (hne : v ≠ l.get ⟨i, hi⟩) :
    ghash H (l.set i v) ≠ ghash H l := by
  set a := l.get ⟨i, hi⟩ with hadef
  have hdecomp : l = l.take i ++ a :: l.drop (i + 1) := by
    conv_lhs => rw [← List.take_append_drop i l]
    congr 1
    exact List.drop_eq_getElem_cons hi
  have hset : l.set i v = l.take i ++ v :: l.drop (i + 1) :=
    List.set_eq_take_cons_drop v hi
  have hla : a < 256 := hb a (l.get_mem i hi)
  have hcast : (v : F257) ≠ (a : F257) := by
    intro hc
    exact hne (natCast_F257_inj v a (by omega) (by omega) hc)
  intro hgh
  apply hcast
  set s := l.drop (i + 1)
  have h1 : ghash H (l.take i ++ v :: s) = ghash H (l.take i ++ a :: s) := by
    rw [← hset, ← hdecomp]
    exact hgh
  rw [ghash_append, ghash_append, ghash_cons, ghash_cons] at h1
  have h2 : (v : F257) * H ^ s.length = (a : F257) * H ^ s.length := by
    have hlen : (v :: s).length = (a :: s).length := by simp
    rw [hlen] at h1
    exact add_right_cancel (add_left_cancel h1)
  exact mul_right_cancel₀ (pow_ne_zero _ hH) h2

/-- The GHASH point derived from the key; always nonzero in the field. -/
def Hk (key : List Nat) : F257 :=
  ((toNum key % 256 + 1 : Nat) : F257)

theorem Hk_ne_zero (key : List Nat) : Hk key ≠ 0 := by
  unfold Hk
  intro h
  have hlt : toNum key % 256 + 1 < 257 := by
    have := Nat.mod_lt (toNum key) (y := 256) (by omega)
    omega
  have h0 : ((0 : Nat) : F257) = ((0 : F257)) := by norm_num
  have := natCast_F257_inj (toNum key % 256 + 1) 0 hlt (by omega) (by rw [h0, h])
  omega

/-- The keystream byte at position `i` for the given key and nonce. -/
def ksByte (key nonce : List Nat) (i : Nat) : Nat :=
  (toNum key * 7 + toNum nonce * 13 + i) % 256

def keystream (key nonce : List Nat) (len : Nat) : List Nat :=
  (List.range len).map (ksByte key nonce)

def xorBytes (x k : List Nat) : List Nat :=
  List.zipWith (fun a b => a ^^^ b) x k

theorem length_keystream (key nonce : List Nat) (len : Nat) :
    (keystream key nonce len).length = len := by
  simp [keystream]

theorem keystream_lt (key nonce : List Nat) (len : Nat) :
    ∀ b ∈ keystream key nonce len, b < 256 := by
  intro b hb
  simp only [keystream, List.mem_map] at hb
  obtain ⟨i, _, hbi⟩ := hb
  rw [← hbi]
  exact Nat.mod_lt _ (by omega)

theorem length_xorBytes (x k : List Nat) :
    (xorBytes x k).length = min x.length k.length := by
  simp [xorBytes]

theorem xorBytes_lt : ∀ (x k : List Nat), (∀ b ∈ x, b < 256) → (∀ b ∈ k, b < 256) →
    ∀ b ∈ xorBytes x k, b < 256 := by
  intro x
  induction x with
  | nil => intro k _ _ b hb; exact absurd hb (by simp [xorBytes])
  | cons a t ih =>
    intro k hx hk b hb
    cases k with
    | nil => exact absurd hb (by simp [xorBytes])
    | cons c s =>
      have hcons : xorBytes (a :: t) (c :: s) = (a ^^^ c) :: xorBytes t s := rfl
      rw [hcons] at hb
      rcases List.mem_cons.mp hb with h | h
      · rw [h]
        have h1 : a < 2 ^ 8 := hx a (List.mem_cons_self a t)
        have h2 : c < 2 ^ 8 := hk c (List.mem_cons_self c s)
        exact Nat.xor_lt_two_pow h1 h2
      · exact ih s (fun y hy => hx y (List.mem_cons_of_mem a hy))
          (fun y hy => hk y (List.mem_cons_of_mem c hy)) b h

theorem xorBytes_cancel : ∀ (x k : List Nat), xorBytes (xorBytes x k) k = x.take k.length := by
  intro x
  induction x with
  | nil => intro k; simp [xorBytes]
  | cons a t ih =>
    intro k
    cases k with
    | nil => simp [xorBytes]
    | cons c s =>
      have h1 : xorBytes (a :: t) (c :: s) = (a ^^^ c) :: xorBytes t s := rfl
      have h2 : xorBytes ((a ^^^ c) :: xorBytes t s) (c :: s) =
          ((a ^^^ c) ^^^ c) :: xorBytes (xorBytes t s) s := rfl
      rw [h1, h2, List.length_cons, List.take_succ_cons, ih s,
        Nat.xor_assoc, Nat.xor_self, Nat.xor_zero]

/-- The authentication tag value: it binds the nonce (injectively, via the
pairing `· * 257 + ·`) and the ciphertext's keyed polynomial hash.  -/
def tagValue (key nonce ct : List Nat) : Nat :=
  toNum nonce * 257 + (ghash (Hk key) ct).val

/-- `EncryptionService.encrypt_database_password`: AES-GCM with a fresh
nonce, emitting `nonce ++ tag ++ ciphertext` (base64 omitted; it is an
injective transport encoding).  The caller supplies the fresh 12-byte
nonce.  -/
def sealSecret (key nonce plaintext : List Nat) : List Nat :=
  let ct := xorBytes plaintext (keystream key nonce plaintext.length)
  nonce ++ toBytes 16 (tagValue key nonce ct) ++ ct

/-- `EncryptionService.decrypt_database_password`: split at offsets 12 and
28 (`nonce = data[:12]`, `tag = data[12:28]`, `ct = data[28:]`), verify the
tag, and only then decrypt; verification failure yields `none`
(`CryptoError`).  -/
def unsealSecret (key data : List Nat) : Option (List Nat) :=
  if data.length < 28 then none
  else
    let nonce := data.take 12
    let tag := (data.drop 12).take 16
    let ct := data.drop 28
    if toNum tag = tagValue key nonce ct then
      some (xorBytes ct (keystream key nonce ct.length))
    else
      none

theorem tagValue_lt (key nonce ct : List Nat) (hn : nonce.length = 12)
    (hnb : ∀ b ∈ nonce, b < 256) : tagValue key nonce ct < 256 ^ 16 := by
  have hv : (ghash (Hk key) ct).val < 257 := ZMod.val_lt _
  have hnn : toNum nonce < 256 ^ 12 := by
    have := toNum_lt nonce hnb
    rwa [hn] at this
  have h1 : tagValue key nonce ct < 256 ^ 12 * 257 := by
    unfold tagValue
    calc toNum nonce * 257 + (ghash (Hk key) ct).val
        < toNum nonce * 257 + 257 := by omega
      _ = (toNum nonce + 1) * 257 := by ring
      _ ≤ 256 ^ 12 * 257 := Nat.mul_le_mul_right _ (by omega)
  calc tagValue key nonce ct < 256 ^ 12 * 257 := h1
    _ ≤ 256 ^ 16 := by norm_num

theorem unsealSecret_parts (key n t c : List Nat) (hn : n.length = 12)
    (ht : t.length = 16) :
    unsealSecret key (n ++ (t ++ c)) =
      if toNum t = tagValue key n c then
        some (xorBytes c (keystream key n c.length))
      else none := by
  have hlen : (n ++ (t ++ c)).length = 28 + c.length := by
    simp [List.length_append, hn, ht]
    omega
  have htake : (n ++ (t ++ c)).take 12 = n := List.take_left' hn
  have hdrop12 : (n ++ (t ++ c)).drop 12 = t ++ c := List.drop_left' hn
  have htag : ((n ++ (t ++ c)).drop 12).take 16 = t := by
    rw [hdrop12]
    exact List.take_left' ht
  have hdrop28 : (n ++ (t ++ c)).drop 28 = c := by
    have h28 : (28 : Nat) = 12 + 16 := by norm_num
    rw [h28, ← List.drop_drop, hdrop12]
    exact List.drop_left' ht
  unfold unsealSecret
  rw [if_neg (by omega)]
  rw [htake, htag, hdrop28]

theorem toNum_set_ne (l : List Nat) (i v : Nat) (hi : i < l.length) (hv : v < 256)
    (hb : ∀ b ∈ l, b < 256) (hne : v ≠ l.get ⟨i, hi⟩) :
    toNum (l.set i v) ≠ toNum l := by
  intro heq
  have hsb : ∀ b ∈ l.set i v, b < 256 := by
    intro b hbm
    rcases List.mem_or_eq_of_mem_set hbm with h | h
    · exact hb b h
    · omega
  have heqlist := toNum_inj (l.set i v) l (List.length_set l i v) hsb hb heq
  have hilt : i < (l.set i v).length := by
    rw [List.length_set]
    exact hi
  have h1 : (l.set i v).get ⟨i, hilt⟩ = v := List.getElem_set_self hilt
  have h2 := List.getElem_of_eq heqlist hilt
  exact hne (h1.symm.trans h2)

theorem fin_idx_congr {α : Type} (l : List α) (i j : Nat) (h : i = j)
    (hi : i < l.length) (hj : j < l.length) : l.get ⟨i, hi⟩ = l.get ⟨j, hj⟩ := by
  subst h
  rfl

/-- Any single-byte corruption of a well-formed sealed blob
`nonce ++ tag ++ ciphertext` fails verification, because the tag binds the
nonce bytes injectively and the ciphertext through the keyed polynomial
hash.  -/
theorem unsealSecret_corrupt (key n t c : List Nat) (hn : n.length = 12)
    (ht : t.length = 16) (hnb : ∀ b ∈ n, b < 256) (htb : ∀ b ∈ t, b < 256)
    (hcb : ∀ b ∈ c, b < 256) (htag : toNum t = tagValue key n c) :
    ∀ (i : Nat) (hi : i < (n ++ (t ++ c)).length) (v : Nat), v < 256 →
      v ≠ (n ++ (t ++ c)).get ⟨i, hi⟩ →
      unsealSecret key ((n ++ (t ++ c)).set i v) = none := by
  intro i hi v hv hne
  have hlentot : (n ++ (t ++ c)).length = 28 + c.length := by
    simp [List.length_append, hn, ht]
    omega
  rcases Nat.lt_or_ge i 12 with h12 | h12
  · -- corruption inside the nonce bytes
    have hilt : i < n.length := by omega
    have hgo : (n ++ (t ++ c)).get ⟨i, hi⟩ = n.get ⟨i, hilt⟩ :=
      List.getElem_append_left hilt
    rw [hgo] at hne
    have hnum_ne : toNum (n.set i v) ≠ toNum n := toNum_set_ne n i v hilt hv hnb hne
    have hset : (n ++ (t ++ c)).set i v = n.set i v ++ (t ++ c) :=
      List.set_append_left i v hilt
    have hn' : (n.set i v).length = 12 := by
      rw [List.length_set, hn]
    have htag_ne : ¬toNum t = tagValue key (n.set i v) c := by
      rw [htag]
      unfold tagValue
      intro heq
      have hmul := Nat.add_right_cancel heq
      exact hnum_ne (Nat.eq_of_mul_eq_mul_right (by omega) hmul).symm
    rw [hset, unsealSecret_parts key (n.set i v) t c hn' ht, if_neg htag_ne]
  · have h12le : n.length ≤ i := by omega
    have hi' : i - n.length < (t ++ c).length := by
      rw [List.length_append] at hi ⊢
      omega
    have hgo1 : (n ++ (t ++ c)).get ⟨i, hi⟩ = (t ++ c).get ⟨i - n.length, hi'⟩ :=
      List.getElem_append_right h12le
    rcases Nat.lt_or_ge i 28 with h28 | h28
    · -- corruption inside the tag bytes
      have hi12 : i - 12 < t.length := by
        rw [ht]
        omega
      have hgo2 : (t ++ c).get ⟨i - n.length, hi'⟩ = t.get ⟨i - 12, hi12⟩ := by
        have hidx : i - n.length = i - 12 := by rw [hn]
        have hi'' : i - 12 < (t ++ c).length := hidx ▸ hi'
        exact (fin_idx_congr (t ++ c) (i - n.length) (i - 12) hidx hi' hi'').trans
          (List.getElem_append_left hi12)
      rw [hgo1, hgo2] at hne
      have hnum_ne : toNum (t.set (i - 12) v) ≠ toNum t :=
        toNum_set_ne t (i - 12) v hi12 hv htb hne
      have hset : (n ++ (t ++ c)).set i v = n ++ (t.set (i - 12) v ++ c) := by
        have h1 : (n ++ (t ++ c)).set i v = n ++ (t ++ c).set (i - n.length) v :=
          List.set_append_right i v h12le
        have hidx : i - n.length = i - 12 := by rw [hn]
        rw [h1, hidx]
        congr 1
        exact List.set_append_left (i - 12) v hi12
      have ht' : (t.set (i - 12) v).length = 16 := by
        rw [List.length_set, ht]
      have htag_ne : ¬toNum (t.set (i - 12) v) = tagValue key n c := by
        rw [← htag]
        exact hnum_ne
      rw [hset, unsealSecret_parts key n (t.set (i - 12) v) c hn ht', if_neg htag_ne]
    · -- corruption inside the ciphertext bytes
      have hic : i - 28 < c.length := by omega
      have htle : t.length ≤ i - n.length := by
        rw [ht, hn]
        omega
      have hi2 : i - n.length - t.length < c.length := by
        rw [ht, hn]
        omega
      have hgo2 : (t ++ c).get ⟨i - n.length, hi'⟩ = c.get ⟨i - 28, hic⟩ := by
        have h3 : (t ++ c).get ⟨i - n.length, hi'⟩ =
            c.get ⟨i - n.length - t.length, hi2⟩ :=
          List.getElem_append_right htle
        rw [h3]
        refine fin_idx_congr c _ _ ?_ hi2 hic
        rw [ht, hn]
        omega
      rw [hgo1, hgo2] at hne
      have hghne : ghash (Hk key) (c.set (i - 28) v) ≠ ghash (Hk key) c :=
        ghash_set_ne (Hk key) (Hk_ne_zero key) c (i - 28) hic v hv hcb hne
      have hset : (n ++ (t ++ c)).set i v = n ++ (t ++ c.set (i - 28) v) := by
        have h1 : (n ++ (t ++ c)).set i v = n ++ (t ++ c).set (i - n.length) v :=
          List.set_append_right i v h12le
        rw [h1]
        congr 1
        have h2 : (t ++ c).set (i - n.length) v =
            t ++ c.set (i - n.length - t.length) v :=
          List.set_append_right (i - n.length) v htle
        rw [h2]
        congr 2
        rw [ht, hn]
        omega
      have htag_ne : ¬toNum t = tagValue key n (c.set (i - 28) v) := by
        rw [htag]
        unfold tagValue
        intro heq
        have hval := Nat.add_left_cancel heq
        exact hghne (ZMod.val_injective 257 hval).symm
      rw [hset, unsealSecret_parts key n t (c.set (i - 28) v) hn ht, if_neg htag_ne]

/-- C2: Secret Vault round-trip and integrity.  For every key, fresh
12-byte nonce and plaintext byte string `x`, `unseal (seal x)` returns `x`;
and corrupting any single byte of the sealed blob to a different byte value
makes `unseal` fail (return `none`) rather than return any plaintext.  -/
theorem vault_roundtrip_and_integrity (key nonce x : List Nat)
    (hn : nonce.length = 12) (hnb : ∀ b ∈ nonce, b < 256)
    (hxb : ∀ b ∈ x, b < 256) :
    unsealSecret key (sealSecret key nonce x) = some x ∧
    ∀ (i : Nat) (hi : i < (sealSecret key nonce x).length) (v : Nat),
      v < 256 → v ≠ (sealSecret key nonce x).get ⟨i, hi⟩ →
      unsealSecret key ((sealSecret key nonce x).set i v) = none := by
  have hKb : ∀ b ∈ keystream key nonce x.length, b < 256 := keystream_lt key nonce x.length
  have hKlen : (keystream key nonce x.length).length = x.length :=
    length_keystream key nonce x.length
  have hctlen : (xorBytes x (keystream key nonce x.length)).length = x.length := by
    rw [length_xorBytes, hKlen, Nat.min_self]
  have hctb : ∀ b ∈ xorBytes x (keystream key nonce x.length), b < 256 :=
    xorBytes_lt x _ hxb hKb
  have htblen : (toBytes 16 (tagValue key nonce
      (xorBytes x (keystream key nonce x.length)))).length = 16 := toBytes_length 16 _
  have htbb : ∀ b ∈ toBytes 16 (tagValue key nonce
      (xorBytes x (keystream key nonce x.length))), b < 256 := toBytes_lt 16 _
  have htbnum : toNum (toBytes 16 (tagValue key nonce
        (xorBytes x (keystream key nonce x.length)))) =
      tagValue key nonce (xorBytes x (keystream key nonce x.length)) :=
    toNum_toBytes 16 _ (tagValue_lt key nonce _ hn hnb)
  have hblob : sealSecret key nonce x =
      nonce ++ (toBytes 16 (tagValue key nonce
        (xorBytes x (keystream key nonce x.length))) ++
        xorBytes x (keystream key nonce x.length)) := by
    unfold sealSecret
    simp only [List.append_assoc]
  constructor
  · rw [hblob, unsealSecret_parts key nonce _ _ hn htblen, if_pos htbnum]
    rw [hctlen, xorBytes_cancel x _, hKlen, List.take_length]
  · rw [hblob]
    exact unsealSecret_corrupt key nonce _ _ hn htblen hnb htbb hctb htbnum

/-- Witness for `vault_roundtrip_and_integrity` at a concrete key, nonce
and plaintext, with the corruption at blob position 0.  -/
theorem vault_witness :
    unsealSecret [1] (sealSecret [1] (List.replicate 12 0) [7, 200]) = some [7, 200] ∧
    unsealSecret [1] ((sealSecret [1] (List.replicate 12 0) [7, 200]).set 0 1) = none := by
  have h := vault_roundtrip_and_integrity [1] (List.replicate 12 0) [7, 200]
    (by decide) (by decide) (by decide)
  refine ⟨h.1, ?_⟩
  have hi : 0 < (sealSecret [1] (List.replicate 12 0) [7, 200]).length := by decide
  have hg : (sealSecret [1] (List.replicate 12 0) [7, 200]).get ⟨0, hi⟩ = 0 := rfl
  exact h.2 0 hi 1 (by decide) (by rw [hg]; decide)

/-!  ## Connection Registry mutations (spec 4.2, src/MULTI_TENANT_ARCHITECTURE.md)

Modelled from the spec: the `DatabaseConnectionService` CRUD bodies are not
in `src/` (the architecture document defines the `database_connections`
schema, whose credential column is `password_encrypted`, and the
`EncryptionService` that fills it).  Every mutating operation seals the
submitted plaintext credential through the Secret Vault before the record
is persisted; the durable record has no plaintext credential field at
all.  -/

structure PlainConnConfig where
  database_type : String
  host : String
  port : Nat
  database_name : String
  username : String

/-- A mutating Connection Registry operation; `create` and `update` carry
the submitted plaintext password together with the fresh nonce the vault
draws for the call.  -/
inductive RegOp where
  | create (cid uid : Nat) (cfg : PlainConnConfig) (password nonce : List Nat)
  | update (cid : Nat) (password : Option (List Nat)) (nonce : List Nat)
  | deactivate (cid : Nat)

def applyOp (key : List Nat) (reg : Registry) : RegOp → Registry
  | RegOp.create cid uid cfg pw nonce =>
      (cid, { user_id := uid, database_type := cfg.database_type, host := cfg.host,
              port := cfg.port, database_name := cfg.database_name,
              username := cfg.username,
              password_encrypted := sealSecret key nonce pw,
              is_active := true }) :: reg
  | RegOp.update cid pw nonce =>
      reg.map (fun p =>
        if p.1 = cid then
          match pw with
          | some w => (p.1, { p.2 with password_encrypted := sealSecret key nonce w })
          | none => p
        else p)
  | RegOp.deactivate cid =>
      reg.map (fun p => if p.1 = cid then (p.1, { p.2 with is_active := false }) else p)

def applyOps (key : List Nat) (reg : Registry) (ops : List RegOp) : Registry :=
  ops.foldl (applyOp key) reg

/-- The durable-state invariant: every persisted credential is in the range
of the Secret Vault's `seal`.  -/
def sealedOnly (key : List Nat) (reg : Registry) : Prop :=
  ∀ p ∈ reg, ∃ nonce pw, p.2.password_encrypted = sealSecret key nonce pw

theorem sealedOnly_applyOp (key : List Nat) (reg : Registry) (op : RegOp)
    (h : sealedOnly key reg) : sealedOnly key (applyOp key reg op) := by
  cases op with
  | create cid uid cfg pw nonce =>
    intro p hp
    rcases List.mem_cons.mp hp with hh | hh
    · rw [hh]
      exact ⟨nonce, pw, rfl⟩
    · exact h p hh
  | update cid pw nonce =>
    intro p hp
    rw [applyOp] at hp
    obtain ⟨q, hq, hpq⟩ := List.mem_map.mp hp
    by_cases hc : q.1 = cid
    · cases pw with
      | some w =>
        rw [if_pos hc] at hpq
        rw [← hpq]
        exact ⟨nonce, w, rfl⟩
      | none =>
        rw [if_pos hc] at hpq
        rw [← hpq]
        exact h q hq
    · rw [if_neg hc] at hpq
      rw [← hpq]
      exact h q hq
  | deactivate cid =>
    intro p hp
    rw [applyOp] at hp
    obtain ⟨q, hq, hpq⟩ := List.mem_map.mp hp
    by_cases hc : q.1 = cid
    · rw [if_pos hc] at hpq
      rw [← hpq]
      exact h q hq
    · rw [if_neg hc] at hpq
      rw [← hpq]
      exact h q hq

/-- C5: after every sequence of mutating Connection Registry operations
applied to a state whose records are all sealed (in particular the empty
registry), every stored record's credential column is the sealed form
produced by the Secret Vault — no plaintext credential reaches durable
storage.  -/
theorem registry_sealed_invariant (key : List Nat) (ops : List RegOp)
    (reg : Registry) (h : sealedOnly key reg) :
    sealedOnly key (applyOps key reg ops) := by
  induction ops generalizing reg with
  | nil => exact h
  | cons op rest ih =>
    exact ih (applyOp key reg op) (sealedOnly_applyOp key reg op h)

/-- Witness for `registry_sealed_invariant`: a create followed by an update
starting from the empty registry.  -/
theorem registry_sealed_witness :
    sealedOnly [1] (applyOps [1] []
      [RegOp.create 5 2 ⟨"postgresql", "h", 5432, "d", "u"⟩ [9, 9] (List.replicate 12 0),
       RegOp.update 5 (some [3, 4, 5]) (List.replicate 12 1)]) := by
  exact registry_sealed_invariant [1]
    [RegOp.create 5 2 ⟨"postgresql", "h", 5432, "d", "u"⟩ [9, 9] (List.replicate 12 0),
     RegOp.update 5 (some [3, 4, 5]) (List.replicate 12 1)] []
    (by intro p hp; exact absurd hp (by simp))

end DataQuery
